import Mathlib

/-
Verification development for the mbirjax core: a shallow embedding of
`mbirjax/vcd_utils.py` (region-of-reconstruction mask, pixel partitions,
partition sequences, array stitching) and of the parallel-beam projector pair
in `experiments/bugs/jax rounding bug/parallel_beam.py`.

Modelling conventions:
* machine floats become exact rationals (ℚ); an angle enters the projector
  only through `cos angle` and `sin angle`, so those two values are passed as
  parameters `c s : ℚ`;
* jax/numpy arrays along the relevant axis become Lean lists; a 2D array
  becomes a list of rows;
* randomized draws (`np.random.permutation`, `np.random.choice`) become
  explicit arguments, and the properties numpy guarantees for them
  (permutation of the input, distinct elements drawn from the stated source)
  become hypotheses of the theorems;
* a Python `raise` becomes an `Except.error`; error messages are not tracked
  beyond being errors.
-/

namespace Mbirjax

/-- One entry of the 2D region-of-reconstruction mask from
`get_2d_ror_mask` in `vcd_utils.py`: with `row_center = (rows - 1)/2`,
`col_center = (cols - 1)/2` and `radius = max row_center col_center`, the mask
at grid position `(r, c)` is `(c - col_center)^2 + (r - row_center)^2 ≤ radius^2`.
The exact inequality is stated here scaled by 4, over ℤ, so that it is kernel
computable; the theorem `inROR_iff` below recovers the literal half-integer
form of the source. -/
def inROR (rows cols r c : ℕ) : Bool :=
  decide ((2 * (c : ℤ) - ((cols : ℤ) - 1)) ^ 2 + (2 * (r : ℤ) - ((rows : ℤ) - 1)) ^ 2 ≤
    (max ((rows : ℤ) - 1) ((cols : ℤ) - 1)) ^ 2)

/-- The full 2D boolean mask array built by `get_2d_ror_mask` (row-major,
entry `[r][c]` is the mask at grid position `(r, c)`). -/
def get_2d_ror_mask (rows cols : ℕ) : List (List Bool) :=
  (List.range rows).map (fun r => (List.range cols).map (fun c => inROR rows cols r c))

/-- The claim's version of the mask predicate, following the spec's words:
true inside the inscribed circle whose radius is the smaller of the two
half-extents.  Used to compare against the source's `inROR`. -/
def inscribedCircleMaskSpec (rows cols r c : ℕ) : Bool :=
  let rowCenter : ℚ := ((rows : ℚ) - 1) / 2
  let colCenter : ℚ := ((cols : ℚ) - 1) / 2
  let radius : ℚ := min rowCenter colCenter
  decide (((c : ℚ) - colCenter) ^ 2 + ((r : ℚ) - rowCenter) ^ 2 ≤ radius ^ 2)

/-- The flattened in-mask pixel indices used by `gen_pixel_partition`:
`indices = np.arange(rows*cols)` filtered by the flattened mask.  Flat index
`p` sits at grid position `(p / cols, p % cols)`. -/
def rorIndices (rows cols : ℕ) : List ℕ :=
  (List.range (rows * cols)).filter (fun p => inROR rows cols (p / cols) (p % cols))

/-- Row `i` of `np.reshape(l, (k, m))`: the `m` consecutive elements of `l`
starting at `i * m`. -/
def reshapeRows (k m : ℕ) (l : List ℕ) : List (List ℕ) :=
  (List.range k).map (fun i => (l.drop (i * m)).take m)

/-- Shallow embedding of `gen_pixel_partition (recon_shape, num_subsets)` from
`vcd_utils.py`.  The two randomized numpy draws are passed explicitly:
`perm` stands for `np.random.permutation` of the in-mask indices (theorems
carry the hypothesis `perm.Perm (rorIndices rows cols)`), and `extra` stands
for `np.random.choice(indices[:num_non_final], size=num_extra, replace=False)`
(theorems carry the hypotheses that `extra` has the required length, has no
duplicates, and draws from `perm.take num_non_final`).  The boolean in the
result records whether the clamping warning was emitted.  The `Except.error`
cases mirror the failure points of the Python code: division by zero when the
(clamped) subset count is zero, and numpy's `ValueError` when
`np.random.choice` is asked for more distinct samples than its source holds. -/
def gen_pixel_partition (rows cols k : ℕ) (perm extra : List ℕ) :
    Except String (List (List ℕ) × Bool) :=
  let N := (rorIndices rows cols).length
  let warned := decide (k > N)
  let k' := if k > N then N else k
  if k' = 0 then .error "division by zero"
  else
    let m := (N + k' - 1) / k'
    let E := k' * m - N
    let numNonFinal := (k' - 1) * m
    if E ≤ min numNonFinal N then
      .ok (((reshapeRows k' m (perm ++ extra)).map (List.insertionSort (· ≤ ·))), warned)
    else .error "cannot take a larger sample than population when replace is false"

/-- Shallow embedding of `gen_partition_sequence` from `vcd_utils.py`.
If `max_iterations` exceeds the current length, the sequence is extended by
repeating its last element; otherwise it is truncated to `max_iterations`.
The empty-sequence case with an extension needed indexes `[-1]` into an empty
array in the original, which fails; this is modelled as `none`. -/
def gen_partition_sequence (seq : List ℤ) (maxIterations : ℕ) : Option (List ℤ) :=
  if maxIterations > seq.length then
    seq.getLast?.map (fun last => seq ++ List.replicate (maxIterations - seq.length) last)
  else
    some (seq.take maxIterations)

/-- The blend weights `jnp.linspace(0, 1, L + 1, endpoint=False)[1:]` used by
`stitch_arrays`: the `j`-th weight (0-indexed) is `(j + 1)/(L + 1)`. -/
def overlapWeights (L : ℕ) : List ℚ :=
  (List.range L).map (fun (j : ℕ) => ((j : ℚ) + 1) / ((L : ℚ) + 1))

/-- The weighted average of the two length-`L` overlap regions in
`stitch_arrays`: entry `j` is `(1 - (j+1)/(L+1)) * a_j + ((j+1)/(L+1)) * b_j`. -/
def blendOverlap (L : ℕ) (a b : List ℚ) : List ℚ :=
  (List.range L).map (fun (j : ℕ) =>
    (1 - ((j : ℚ) + 1) / ((L : ℚ) + 1)) * a.getD j 0 +
      (((j : ℚ) + 1) / ((L : ℚ) + 1)) * b.getD j 0)

/-- One pass of the `stitch_arrays` loop body: replace the trailing `L`
entries of the accumulated array by the blend with the leading `L` entries of
the next array, then append the rest of the next array. -/
def stitchStep (L : ℕ) (acc nxt : List ℚ) : List ℚ :=
  acc.take (acc.length - L) ++ blendOverlap L (acc.drop (acc.length - L)) (nxt.take L) ++
    nxt.drop L

/-- The value computation of `stitch_arrays` along the stitching axis
(after the `swapaxes` normalization, all operations act along axis 0, and the
off-axis dimensions act pointwise; an array is therefore modelled by its list
of entries along the stitching axis). -/
def stitchData (L : ℕ) : List (List ℚ) → List ℚ
  | [] => []
  | a :: rest => rest.foldl (stitchStep L) a

/-- The input of `stitch_arrays`: either not a Python list at all, or a list
of arrays, each modelled as its shape together with its entries along the
stitching axis. -/
inductive StitchInput where
  | notList : StitchInput
  | arrays : List (List ℕ × List ℚ) → StitchInput

/-- The shape validation loop of `stitch_arrays` (lines 29-36 of
`vcd_utils.py`): for every dimension of the first array, off-axis extents must
all agree (`np.amax == np.amin`, i.e. all equal) and the on-axis extents must
all be at least `overlap_length` (`np.amin >= overlap_length`, i.e. each at
least `L`). -/
def stitchChecksPass (shapes : List (List ℕ)) (L axis : ℕ) : Bool :=
  (List.range (shapes.headD []).length).all (fun dim =>
    let lengths := shapes.map (fun sh => sh.getD dim 0)
    if dim ≠ axis then lengths.all (fun x => decide (x = lengths.headD 0))
    else lengths.all (fun x => decide (L ≤ x)))

/-- Shallow embedding of `stitch_arrays(array_list, overlap_length, axis)`:
reject a non-list or a list of fewer than two arrays, then run the shape
checks, then compute the blended result.  Error messages are collapsed; only
error-versus-result is tracked. -/
def stitch_arrays (input : StitchInput) (L axis : ℕ) : Except String (List ℚ) :=
  match input with
  | .notList => .error "array_list must be a list of 2 or more jax arrays"
  | .arrays l =>
    if l.length < 2 then .error "array_list must be a list of 2 or more jax arrays"
    else if stitchChecksPass (l.map (fun p => p.1)) L axis then
      .ok (stitchData L (l.map (fun p => p.2)))
    else .error "shape mismatch or array shorter than overlap_length"

/-- The stitched result as the spec describes it: every `L`-element overlap
between consecutive arrays is replaced by the linear blend of the trailing `L`
entries of the earlier array and the leading `L` entries of the next array,
and all other entries are kept unchanged.  The recursion expresses this
directly: the tail stitch of `b :: rest` starts with `b` unchanged, and its
leading `L` entries (the leading overlap of `b`) are dropped here because the
blend replaces them. -/
def specStitch (L : ℕ) : List (List ℚ) → List ℚ
  | [] => []
  | [a] => a
  | a :: b :: rest =>
    a.take (a.length - L) ++ blendOverlap L (a.drop (a.length - L)) (b.take L) ++
      (specStitch L (b :: rest)).drop L

/-- Boolean error test for `Except`. -/
def isError : Except String (List ℚ) → Bool
  | .error _ => true
  | .ok _ => false

/-- Geometry parameters namedtuple from `get_geometry_parameters` in
`parallel_beam.py`. -/
structure GeometryParams where
  delta_det_channel : ℚ
  det_channel_offset : ℚ
  delta_voxel : ℚ
  psf_radius : ℕ
deriving DecidableEq

/-- Projector parameters namedtuple: `sinogram_shape` is
`(num_views, num_det_rows, num_det_channels)` and `recon_shape` is
`(num_rows, num_cols, num_slices)`. -/
structure ProjectorParams where
  sinogram_shape : ℕ × ℕ × ℕ
  recon_shape : ℕ × ℕ × ℕ
  geometry_params : GeometryParams
deriving DecidableEq

/-- `get_psf_radius` from `parallel_beam.py`:
`int(ceil(ceil(delta_voxel / delta_det_channel) / 2))` (nonnegative for the
physical positive spacings, so the truncation to ℕ is exact). -/
def get_psf_radius (delta_det_channel delta_voxel : ℚ) : ℕ :=
  (⌈((⌈delta_voxel / delta_det_channel⌉ : ℤ) : ℚ) / 2⌉).toNat

/-- `jnp.round`: round half to even (banker's rounding), as jax does. -/
def jround (x : ℚ) : ℤ :=
  let f := ⌊x⌋
  let r := x - (f : ℚ)
  if r < 1 / 2 then f
  else if 1 / 2 < r then f + 1
  else if f % 2 = 0 then f else f + 1

/-- `recon_ij_to_x` from `parallel_beam.py`, with `c = cos angle` and
`s = sin angle`: center the indices, scale by `delta_voxel`, rotate, keep the
x (detector-channel-axis) component. -/
def recon_ij_to_x (i j : ℕ) (delta_voxel : ℚ) (recon_shape : ℕ × ℕ × ℕ) (c s : ℚ) : ℚ :=
  let y_tilde := delta_voxel * ((i : ℚ) - ((recon_shape.1 : ℚ) - 1) / 2)
  let x_tilde := delta_voxel * ((j : ℚ) - ((recon_shape.2.1 : ℚ) - 1) / 2)
  c * x_tilde - s * y_tilde

/-- The fractional detector-channel coordinate `n_p` of one pixel, from
`compute_proj_data`: unravel the flat pixel index row-major, project to `x`,
then `(x + det_channel_offset) / delta_det_channel + (num_det_channels - 1)/2`. -/
def pixel_n_p (pp : ProjectorParams) (c s : ℚ) (p : ℕ) : ℚ :=
  let cols := pp.recon_shape.2.1
  let x := recon_ij_to_x (p / cols) (p % cols) pp.geometry_params.delta_voxel pp.recon_shape c s
  let det_center_channel := ((pp.sinogram_shape.2.2 : ℚ) - 1) / 2
  (x + pp.geometry_params.det_channel_offset) / pp.geometry_params.delta_det_channel +
    det_center_channel

/-- The nearest integer channel `n_p_center = jnp.round(n_p)`. -/
def pixel_n_center (pp : ProjectorParams) (c s : ℚ) (p : ℕ) : ℤ :=
  jround (pixel_n_p pp c s p)

/-- The obliquity factor `cos_alpha_p_xy = max(|cos angle|, |sin angle|)`. -/
def cos_alpha (c s : ℚ) : ℚ := max |c| |s|

/-- The projected voxel footprint width
`W_p_c = (delta_voxel / delta_det_channel) * cos_alpha_p_xy`. -/
def W_p_c (pp : ProjectorParams) (c s : ℚ) : ℚ :=
  (pp.geometry_params.delta_voxel / pp.geometry_params.delta_det_channel) * cos_alpha c s

/-- The analytic weight `A_chan_n` of one pixel at integer channel `n`, as in
lines 162-165 (forward) and 209-213 (back) of `parallel_beam.py`:
`A = delta_voxel * clip((W + 1)/2 - |n_p - n|, 0, min(1, W)) / cos_alpha`,
then zeroed when `n` is outside `[0, num_det_channels)`. -/
def A_chan (pp : ProjectorParams) (c s : ℚ) (p : ℕ) (n : ℤ) : ℚ :=
  let W := W_p_c pp c s
  let L_max := min 1 W
  let L_p_c_n := min (max ((W + 1) / 2 - |pixel_n_p pp c s p - (n : ℚ)|) 0) L_max
  let A := pp.geometry_params.delta_voxel * L_p_c_n / cos_alpha c s
  if 0 ≤ n ∧ n < (pp.sinogram_shape.2.2 : ℤ) then A else 0

/-- The forward loop's offsets `jnp.arange(-psf_radius, psf_radius + 1)`. -/
def forwardOffsets (R : ℕ) : List ℤ :=
  (List.range (2 * R + 1)).map (fun (t : ℕ) => (t : ℤ) - (R : ℤ))

/-- The back-projection loop's offsets as written in the source:
`jnp.arange(-psf_radius, 0)` (the symmetric stop `psf_radius + 1` is
commented out in the file). -/
def backwardOffsets (R : ℕ) : List ℤ :=
  (List.range R).map (fun (t : ℕ) => (t : ℤ) - (R : ℤ))

/-- Entry `(row, chan)` of the sinogram view produced by
`forward_project_pixel_batch_to_one_view`: for each offset and each pixel, the
scatter-add `sinogram_view.at[:, n].add(A_chan_n * voxel_values.T)` deposits
`A_chan_n(i) * voxel_values[i][row]` into channel `n i`, so entry `(row, chan)`
accumulates exactly the terms with `n i = chan` (out-of-range `n` carries a
zeroed weight and jax scatter drops out-of-range indices, so nothing else
lands anywhere). -/
def forward_project_pixel_batch_to_one_view (voxel_values : List (List ℚ))
    (pixel_indices : List ℕ) (c s : ℚ) (pp : ProjectorParams) (row chan : ℕ) : ℚ :=
  ((forwardOffsets pp.geometry_params.psf_radius).map (fun n_offset =>
    ((List.range pixel_indices.length).map (fun i =>
      let p := pixel_indices.getD i 0
      let n := pixel_n_center pp c s p + n_offset
      (if n = (chan : ℤ) then A_chan pp c s p n else 0) *
        (voxel_values.getD i []).getD row 0)).sum)).sum

/-- A clamped gather `sinogram_view[:, n]`: jax clamps an out-of-range gather
index into `[0, num_channels - 1]`. -/
def gather_clamped (view : List (List ℚ)) (num_channels : ℕ) (row : ℕ) (n : ℤ) : ℚ :=
  (view.getD row []).getD ((min (max n 0) ((num_channels : ℤ) - 1)).toNat) 0

/-- Entry `(i, row)` of the voxel cylinder produced by
`back_project_one_view_to_pixel_batch` as written in the source: a loop over
`backwardOffsets` (the asymmetric range `[-psf_radius, 0)` appearing in the
file) accumulating `A_chan_n ^ coeff_power * sinogram_view[row, n]` with the
gather clamped. -/
def back_project_one_view_to_pixel_batch (sinogram_view : List (List ℚ))
    (pixel_indices : List ℕ) (c s : ℚ) (pp : ProjectorParams) (coeff_power : ℕ)
    (i row : ℕ) : ℚ :=
  ((backwardOffsets pp.geometry_params.psf_radius).map (fun n_offset =>
    let p := pixel_indices.getD i 0
    let n := pixel_n_center pp c s p + n_offset
    (A_chan pp c s p n) ^ coeff_power *
      gather_clamped sinogram_view pp.sinogram_shape.2.2 row n)).sum

/-- The back projection as the spec describes it (mirror of the forward path):
the same symmetric offset loop `[-psf_radius, psf_radius]` as the forward
projection, accumulating `A ^ coeff_power * sinogram_view[row, n]` with
out-of-range channels contributing zero. -/
def back_project_one_view_spec (sinogram_view : List (List ℚ))
    (pixel_indices : List ℕ) (c s : ℚ) (pp : ProjectorParams) (coeff_power : ℕ)
    (i row : ℕ) : ℚ :=
  ((forwardOffsets pp.geometry_params.psf_radius).map (fun n_offset =>
    let p := pixel_indices.getD i 0
    let n := pixel_n_center pp c s p + n_offset
    (A_chan pp c s p n) ^ coeff_power *
      (if 0 ≤ n ∧ n < (pp.sinogram_shape.2.2 : ℤ) then
        (sinogram_view.getD row []).getD n.toNat 0 else 0))).sum

/-- Inner product of a computed view (as an entry function) with a sinogram
view, over the `num_rows × num_channels` grid. -/
def innerView (numRows numChans : ℕ) (f : ℕ → ℕ → ℚ) (view : List (List ℚ)) : ℚ :=
  ((List.range numRows).map (fun r =>
    ((List.range numChans).map (fun ch => f r ch * (view.getD r []).getD ch 0)).sum)).sum

/-- Inner product of a voxel batch with a computed voxel cylinder (as an entry
function), over the `num_pixels × num_rows` grid. -/
def innerPixels (numPixels numRows : ℕ) (v : List (List ℚ)) (g : ℕ → ℕ → ℚ) : ℚ :=
  ((List.range numPixels).map (fun i =>
    ((List.range numRows).map (fun r => (v.getD i []).getD r 0 * g i r)).sum)).sum

/-- A tiny concrete geometry: unit spacings, zero offset, a 1x1x1 recon and a
single-row single-channel sinogram.  The psf radius is the one the code
computes for unit spacings, namely 1. -/
def ppUnit : ProjectorParams :=
  { sinogram_shape := (1, 1, 1)
    recon_shape := (1, 1, 1)
    geometry_params :=
      { delta_det_channel := 1
        det_channel_offset := 0
        delta_voxel := 1
        psf_radius := get_psf_radius 1 1 } }

/-- The same geometry with the detector channel offset pushed to 100, so the
single pixel's footprint lands far outside the single detector channel. -/
def ppFar : ProjectorParams :=
  { sinogram_shape := (1, 1, 1)
    recon_shape := (1, 1, 1)
    geometry_params :=
      { delta_det_channel := 1
        det_channel_offset := 100
        delta_voxel := 1
        psf_radius := get_psf_radius 1 1 } }

/-- The integer form of the mask inequality is exactly the source's
half-integer rational form. -/
theorem inROR_iff (rows cols r c : ℕ) :
    inROR rows cols r c = true ↔
      ((c : ℚ) - ((cols : ℚ) - 1) / 2) ^ 2 + ((r : ℚ) - ((rows : ℚ) - 1) / 2) ^ 2 ≤
        (max (((rows : ℚ) - 1) / 2) (((cols : ℚ) - 1) / 2)) ^ 2 := by
  rw [inROR, decide_eq_true_iff]
  have hmax : max (((rows : ℚ) - 1) / 2) (((cols : ℚ) - 1) / 2)
      = ((max ((rows : ℤ) - 1) ((cols : ℤ) - 1) : ℤ) : ℚ) / 2 := by
    rw [Int.cast_max, max_div_div_right (by norm_num : (0:ℚ) ≤ 2)]
    push_cast
    ring_nf
  rw [hmax]
  have e1 : ((c : ℚ) - ((cols : ℚ) - 1) / 2) ^ 2
      = ((2 * (c : ℤ) - ((cols : ℤ) - 1) : ℤ) : ℚ) ^ 2 / 4 := by push_cast; ring
  have e2 : ((r : ℚ) - ((rows : ℚ) - 1) / 2) ^ 2
      = ((2 * (r : ℤ) - ((rows : ℤ) - 1) : ℤ) : ℚ) ^ 2 / 4 := by push_cast; ring
  have e3 : (((max ((rows : ℤ) - 1) ((cols : ℤ) - 1) : ℤ) : ℚ) / 2) ^ 2
      = ((max ((rows : ℤ) - 1) ((cols : ℤ) - 1) : ℤ) : ℚ) ^ 2 / 4 := by ring
  rw [e1, e2, e3, div_add_div_same, div_le_div_iff_of_pos_right (by norm_num : (0:ℚ) < 4)]
  exact_mod_cast Iff.rfl

/-- Entry `(r, c)` of the mask array is the `inROR` predicate, for in-grid
positions. -/
theorem get_2d_ror_mask_entry (rows cols r c : ℕ) (hr : r < rows) (hc : c < cols) :
    ((get_2d_ror_mask rows cols).getD r []).getD c false = inROR rows cols r c := by
  simp [get_2d_ror_mask, List.getD_eq_getElem?_getD, List.getElem?_map, List.getElem?_range,
    hr, hc]

/-- The psf radius computed by the source for unit spacings is 1. -/
theorem get_psf_radius_unit : get_psf_radius 1 1 = 1 := by
  unfold get_psf_radius
  rw [show ((⌈(1:ℚ)/1⌉ : ℤ) : ℚ) = 1 by norm_num]
  rw [show ⌈(1:ℚ)/2⌉ = 1 by rw [Int.ceil_eq_iff]; norm_num]
  rfl

/-- The psf radius stored in the unit geometry. -/
theorem ppUnit_psf : ppUnit.geometry_params.psf_radius = 1 := get_psf_radius_unit

/-- The psf radius stored in the far-offset geometry. -/
theorem ppFar_psf : ppFar.geometry_params.psf_radius = 1 := get_psf_radius_unit

/-- The unit geometry has a single detector channel. -/
theorem ppUnit_nchan : ppUnit.sinogram_shape.2.2 = 1 := rfl

/-- The unit geometry has unit voxel spacing. -/
theorem ppUnit_dv : ppUnit.geometry_params.delta_voxel = 1 := rfl

/-- The unit geometry has unit channel spacing. -/
theorem ppUnit_ddc : ppUnit.geometry_params.delta_det_channel = 1 := rfl

/-- The far-offset geometry has a single detector channel. -/
theorem ppFar_nchan : ppFar.sinogram_shape.2.2 = 1 := rfl

/-- The forward offsets at radius 1. -/
theorem forwardOffsets_one : forwardOffsets 1 = [-1, 0, 1] := by decide

/-- The backward offsets at radius 1. -/
theorem backwardOffsets_one : backwardOffsets 1 = [-1] := by decide

/-- In the unit geometry at angle 0, the center pixel projects to channel
coordinate 0. -/
theorem pixel_n_p_unit : pixel_n_p ppUnit 1 0 0 = 0 := by
  norm_num [pixel_n_p, recon_ij_to_x, ppUnit]

/-- In the unit geometry at angle 0, the center pixel's nearest channel is 0. -/
theorem pixel_n_center_unit : pixel_n_center ppUnit 1 0 0 = 0 := by
  norm_num [pixel_n_center, pixel_n_p_unit, jround]

/-- The unit-geometry weight at the out-of-range channel `-1` is zero. -/
theorem A_chan_unit_neg : A_chan ppUnit 1 0 0 (-1) = 0 := by
  norm_num [A_chan]

/-- The unit-geometry weight at the center channel is 1 (full overlap, unit
spacings, no obliquity). -/
theorem A_chan_unit_zero : A_chan ppUnit 1 0 0 0 = 1 := by
  norm_num [A_chan, W_p_c, cos_alpha, pixel_n_p_unit, ppUnit_nchan, ppUnit_dv, ppUnit_ddc]

/-- The unit-geometry weight at the out-of-range channel 1 is zero. -/
theorem A_chan_unit_one : A_chan ppUnit 1 0 0 1 = 0 := by
  norm_num [A_chan, ppUnit_nchan]

/-- C1: the claim asserts that the forward and back projectors are an exact
adjoint pair, `⟨forward(v), s⟩ = ⟨v, back(s)⟩`, for every angle including 0.
The code violates this: at angle 0 with a unit geometry (one pixel at the
volume center, one detector row and channel, unit spacings), the single pixel
projects exactly onto the single channel, so `⟨forward(v), s⟩ = 1` for
`v = [[1]]`, `s = [[1]]`; but the back projection in the source iterates
offsets over `[-psf_radius, 0)` (the symmetric stop is commented out), misses
the central offset, and returns 0, so `⟨v, back(s)⟩ = 0 ≠ 1`. -/
theorem adjointness_fails_at_angle_zero :
    innerView 1 1 (forward_project_pixel_batch_to_one_view [[1]] [0] 1 0 ppUnit) [[1]] = 1 ∧
    innerPixels 1 1 [[1]] (back_project_one_view_to_pixel_batch [[1]] [0] 1 0 ppUnit 1) = 0 ∧
    (1 : ℚ) ≠ 0 := by
  refine ⟨?_, ?_, by norm_num⟩
  · simp [innerView, forward_project_pixel_batch_to_one_view, ppUnit_psf, forwardOffsets_one,
      pixel_n_center_unit, A_chan_unit_neg, A_chan_unit_zero, A_chan_unit_one, List.range_succ]
  · simp [innerPixels, back_project_one_view_to_pixel_batch, ppUnit_psf, backwardOffsets_one,
      pixel_n_center_unit, A_chan_unit_neg, ppUnit_nchan, List.range_succ]

/-- C2: the claim asserts the back projector iterates the same symmetric
offset range `[-psf_radius, psf_radius]` as the forward path, accumulating
`A ^ coeff_power * view[:, n]`.  The source's loop instead runs over
`[-psf_radius, 0)`.  At angle 0 with the unit geometry the symmetric formula
gives 1 while the code gives 0. -/
theorem back_projection_offset_range_asymmetric :
    back_project_one_view_to_pixel_batch [[1]] [0] 1 0 ppUnit 1 0 0 = 0 ∧
    back_project_one_view_spec [[1]] [0] 1 0 ppUnit 1 0 0 = 1 ∧
    (0 : ℚ) ≠ 1 := by
  refine ⟨?_, ?_, by norm_num⟩
  · simp [back_project_one_view_to_pixel_batch, ppUnit_psf, backwardOffsets_one,
      pixel_n_center_unit, A_chan_unit_neg, ppUnit_nchan]
  · simp [back_project_one_view_spec, ppUnit_psf, forwardOffsets_one,
      pixel_n_center_unit, A_chan_unit_neg, A_chan_unit_zero, A_chan_unit_one, ppUnit_nchan]

/-- C4 counterexample: for the non-square shape `(5, 3, …)` the code's mask is
true at grid position `(0, 1)` (the code uses the larger half-extent as the
radius), while the claim's inscribed circle (radius the smaller half-extent)
excludes it. -/
theorem ror_mask_not_inscribed_circle :
    ((get_2d_ror_mask 5 3).getD 0 []).getD 1 false = true ∧
    inscribedCircleMaskSpec 5 3 0 1 = false := by
  constructor
  · decide
  · rw [inscribedCircleMaskSpec]
    norm_num

/-- C4 amended: the mask is true exactly at the grid positions inside the
circle centered at the grid center whose radius is the larger (not the
smaller) of the two half-extents. -/
theorem ror_mask_is_max_halfextent_circle (rows cols r c : ℕ) (hr : r < rows) (hc : c < cols) :
    ((get_2d_ror_mask rows cols).getD r []).getD c false = true ↔
      ((c : ℚ) - ((cols : ℚ) - 1) / 2) ^ 2 + ((r : ℚ) - ((rows : ℚ) - 1) / 2) ^ 2 ≤
        (max (((rows : ℚ) - 1) / 2) (((cols : ℚ) - 1) / 2)) ^ 2 := by
  rw [get_2d_ror_mask_entry rows cols r c hr hc]
  exact inROR_iff rows cols r c

/-- Witness for the amended C4 theorem at the concrete shape `(3, 3)`,
position `(1, 1)`. -/
theorem ror_mask_is_max_halfextent_circle_witness :
    (1 < 3 ∧ 1 < 3) ∧ ((get_2d_ror_mask 3 3).getD 1 []).getD 1 false = true :=
  ⟨⟨by decide, by decide⟩,
    (ror_mask_is_max_halfextent_circle 3 3 1 1 (by decide) (by decide)).mpr (by norm_num)⟩

/-- C8: `gen_partition_sequence` returns a sequence of length exactly
`max_iterations`; when `max_iterations` exceeds the input length the input is
extended by repeating its final element, otherwise it is truncated.  The
(degenerate) empty input is excluded: there the original indexes into an empty
array. -/
theorem gen_partition_sequence_extends (seq : List ℤ) (maxIterations : ℕ) (h : seq ≠ []) :
    ∃ out, gen_partition_sequence seq maxIterations = some out ∧
      out.length = maxIterations ∧
      (seq.length < maxIterations →
        out = seq ++ List.replicate (maxIterations - seq.length) (seq.getLast h)) ∧
      (maxIterations ≤ seq.length → out = seq.take maxIterations) := by
  unfold gen_partition_sequence
  by_cases hgt : seq.length < maxIterations
  · rw [if_pos hgt, List.getLast?_eq_getLast seq h, Option.map_some']
    refine ⟨_, rfl, by simp; omega, fun _ => rfl, fun hle => absurd hgt (not_lt.mpr hle)⟩
  · rw [if_neg hgt]
    refine ⟨_, rfl, by simp [List.length_take]; omega, fun hlt => absurd hlt hgt, fun _ => rfl⟩

/-- Witness for C8 at the spec's example: `[0,1,2]` with budget 7 becomes
`[0,1,2,2,2,2,2]`. -/
theorem gen_partition_sequence_extends_witness :
    ([0, 1, 2] : List ℤ) ≠ [] ∧
      gen_partition_sequence [0, 1, 2] 7 = some [0, 1, 2, 2, 2, 2, 2] := by
  refine ⟨by decide, ?_⟩
  obtain ⟨out, h1, _, h3, _⟩ := gen_partition_sequence_extends [0, 1, 2] 7 (by decide)
  rw [h1, h3 (by decide)]
  decide

/-- C10: `stitch_arrays` rejects a non-list argument and a list of fewer than
two arrays with a `ValueError` (modelled as `Except.error`), regardless of the
array contents; in particular a single array is not treated as an identity
stitch. -/
theorem stitch_arrays_requires_list_of_two (input : StitchInput) (L axis : ℕ)
    (h : input = .notList ∨ ∃ l, input = .arrays l ∧ l.length < 2) :
    isError (stitch_arrays input L axis) = true := by
  rcases h with h | ⟨l, rfl, hl⟩
  · subst h; rfl
  · simp only [stitch_arrays, if_pos hl]
    rfl

/-- Witness for C10: a singleton list is rejected. -/
theorem stitch_arrays_requires_list_of_two_witness :
    ([(([3], [(1 : ℚ), 2, 3]))] : List (List ℕ × List ℚ)).length < 2 ∧
      isError (stitch_arrays (.arrays [([3], [(1 : ℚ), 2, 3])]) 2 0) = true :=
  ⟨by decide,
    stitch_arrays_requires_list_of_two _ 2 0 (Or.inr ⟨_, rfl, by decide⟩)⟩

/-- C9: `stitch_arrays` fails fast on invalid shapes: if the arrays disagree
in some in-range dimension other than the stitching axis, or some array's
extent along the stitching axis is smaller than `overlap_length`, the call
returns an error and no blended result is produced. -/
theorem stitch_arrays_fails_fast_on_bad_shapes (l : List (List ℕ × List ℚ)) (L axis : ℕ)
    (h : (∃ dim, dim < ((l.headD ([], [])).1).length ∧ dim ≠ axis ∧
            ∃ p ∈ l, p.1.getD dim 0 ≠ ((l.headD ([], [])).1).getD dim 0) ∨
         (axis < ((l.headD ([], [])).1).length ∧ ∃ p ∈ l, p.1.getD axis 0 < L)) :
    isError (stitch_arrays (.arrays l) L axis) = true := by
  by_cases h2 : l.length < 2
  · simp only [stitch_arrays, if_pos h2]; rfl
  · cases l with
    | nil => simp at h2
    | cons a rest =>
      simp only [stitch_arrays, if_neg h2]
      have hcp : stitchChecksPass ((a :: rest).map (fun p => p.1)) L axis = false := by
        by_contra hcp'
        have htrue : stitchChecksPass ((a :: rest).map (fun p => p.1)) L axis = true := by
          revert hcp'
          cases stitchChecksPass ((a :: rest).map (fun p => p.1)) L axis <;> simp
        unfold stitchChecksPass at htrue
        rw [List.all_eq_true] at htrue
        rcases h with ⟨dim, hdim, hne, p, hp, hneq⟩ | ⟨haxis, p, hp, hlt⟩
        · have hd := htrue dim (by
            simp only [List.mem_range, List.map_cons, List.headD_cons]
            simpa using hdim)
          rw [if_pos hne, List.all_eq_true] at hd
          have hpmem : p.1.getD dim 0 ∈ ((a :: rest).map (fun q => q.1)).map
              (fun sh => sh.getD dim 0) := by
            exact List.mem_map.mpr ⟨p.1, List.mem_map.mpr ⟨p, hp, rfl⟩, rfl⟩
          have := hd _ hpmem
          simp only [List.map_cons, List.headD_cons, decide_eq_true_eq] at this
          simp only [List.headD_cons] at hneq
          exact hneq this
        · have hd := htrue axis (by
            simp only [List.mem_range, List.map_cons, List.headD_cons]
            simpa using haxis)
          rw [if_neg (by simp), List.all_eq_true] at hd
          have hpmem : p.1.getD axis 0 ∈ ((a :: rest).map (fun q => q.1)).map
              (fun sh => sh.getD axis 0) := by
            exact List.mem_map.mpr ⟨p.1, List.mem_map.mpr ⟨p, hp, rfl⟩, rfl⟩
          have := hd _ hpmem
          simp only [decide_eq_true_eq] at this
          omega
      rw [hcp]
      rfl

/-- Witness for C9: two 1-D arrays of extents 3 and 2 with overlap length 5
are rejected. -/
theorem stitch_arrays_fails_fast_on_bad_shapes_witness :
    (0 < (([([3], [(1 : ℚ), 2, 3]), ([2], [1, 2])].headD ([], [])).1).length ∧
        ([3] : List ℕ).getD 0 0 < 5) ∧
      isError (stitch_arrays (.arrays [([3], [(1 : ℚ), 2, 3]), ([2], [1, 2])]) 5 0) = true :=
  ⟨⟨by decide, by decide⟩,
    stitch_arrays_fails_fast_on_bad_shapes _ 5 0
      (Or.inr ⟨by decide, ⟨([3], [1, 2, 3]), by decide, by decide⟩⟩)⟩

/-- Every backward offset of the source's asymmetric loop is also a forward
offset. -/
theorem backwardOffsets_subset (R : ℕ) : backwardOffsets R ⊆ forwardOffsets R := by
  intro x hx
  rw [backwardOffsets, List.mem_map] at hx
  obtain ⟨t, ht, rfl⟩ := hx
  rw [forwardOffsets, List.mem_map]
  exact ⟨t, List.mem_range.mpr (by have := List.mem_range.mp ht; omega), rfl⟩

/-- C6: when the requested subset count exceeds the in-mask pixel count,
`gen_pixel_partition` clamps the subset count to the in-mask pixel count,
flags the warning, and returns normally (no error).  In that case the extra
draw is empty, so `extra = []`. -/
theorem gen_pixel_partition_clamps (rows cols k : ℕ) (perm : List ℕ)
    (_hperm : perm.Perm (rorIndices rows cols))
    (hN : 0 < (rorIndices rows cols).length)
    (hk : (rorIndices rows cols).length < k) :
    ∃ P, gen_pixel_partition rows cols k perm [] = .ok (P, true) ∧
      P.length = (rorIndices rows cols).length ∧ P.length < k := by
  have heq : gen_pixel_partition rows cols k perm [] =
      .ok (((reshapeRows (rorIndices rows cols).length 1 (perm ++ [])).map
        (List.insertionSort (· ≤ ·))), true) := by
    simp only [gen_pixel_partition]
    rw [if_pos hk]
    rw [if_neg (by omega : ¬ (rorIndices rows cols).length = 0)]
    have hm : ((rorIndices rows cols).length + (rorIndices rows cols).length - 1) /
        (rorIndices rows cols).length = 1 := by
      have h1 : (rorIndices rows cols).length + (rorIndices rows cols).length - 1 =
          ((rorIndices rows cols).length - 1) + 1 * (rorIndices rows cols).length := by omega
      rw [h1, Nat.add_mul_div_right _ _ (by omega : 0 < (rorIndices rows cols).length),
        Nat.div_eq_of_lt (by omega)]
    rw [hm]
    rw [if_pos (by simp [Nat.mul_one] :
      (rorIndices rows cols).length * 1 - (rorIndices rows cols).length ≤
        min (((rorIndices rows cols).length - 1) * 1) (rorIndices rows cols).length)]
    rw [decide_eq_true hk]
  refine ⟨_, heq, ?_, ?_⟩
  · simp [reshapeRows]
  · simp only [List.length_map, reshapeRows, List.length_range]
    omega

/-- Witness for C6 at shape `(3, 3)` (5 in-mask pixels) with `k = 7`. -/
theorem gen_pixel_partition_clamps_witness :
    ((rorIndices 3 3).length < 7 ∧ [1, 3, 4, 5, 7].Perm (rorIndices 3 3)) ∧
      ∃ P, gen_pixel_partition 3 3 7 [1, 3, 4, 5, 7] [] = .ok (P, true) ∧
        P.length = (rorIndices 3 3).length ∧ P.length < 7 :=
  ⟨⟨by decide, by decide⟩,
    gen_pixel_partition_clamps 3 3 7 [1, 3, 4, 5, 7] (by decide) (by decide) (by decide)⟩

/-- C7: a pixel whose projected footprint (the band of candidate channels
`n_p_center ± psf_radius`) lies entirely outside `[0, num_det_channels)`
contributes zero to the forward projection (changing its voxel values leaves
every output entry unchanged), and the corresponding row of the back-projected
voxel cylinder is identically zero for every input view (for any positive
`coeff_power`; the default is 1). -/
theorem zero_footprint_contributes_nothing (pp : ProjectorParams) (c s : ℚ)
    (pixel_indices : List ℕ) (i : ℕ)
    (hout : ∀ off ∈ forwardOffsets pp.geometry_params.psf_radius,
      ¬(0 ≤ pixel_n_center pp c s (pixel_indices.getD i 0) + off ∧
        pixel_n_center pp c s (pixel_indices.getD i 0) + off < (pp.sinogram_shape.2.2 : ℤ))) :
    (∀ v v' (row chan : ℕ),
      (∀ j < pixel_indices.length, j ≠ i →
        (v.getD j []).getD row 0 = (v'.getD j []).getD row 0) →
      forward_project_pixel_batch_to_one_view v pixel_indices c s pp row chan =
        forward_project_pixel_batch_to_one_view v' pixel_indices c s pp row chan) ∧
    (∀ view (row coeff_power : ℕ), 0 < coeff_power →
      back_project_one_view_to_pixel_batch view pixel_indices c s pp coeff_power i row = 0) := by
  have hA : ∀ off ∈ forwardOffsets pp.geometry_params.psf_radius,
      A_chan pp c s (pixel_indices.getD i 0)
        (pixel_n_center pp c s (pixel_indices.getD i 0) + off) = 0 := by
    intro off hoff
    simp only [A_chan]
    rw [if_neg (hout off hoff)]
  constructor
  · intro v v' row chan hv
    simp only [forward_project_pixel_batch_to_one_view]
    congr 1
    apply List.map_congr_left
    intro off hoff
    congr 1
    apply List.map_congr_left
    intro j hj
    rw [List.mem_range] at hj
    by_cases hji : j = i
    · subst hji
      rw [hA off hoff]
      simp
    · rw [hv j hj hji]
  · intro view row coeff_power hcp
    simp only [back_project_one_view_to_pixel_batch]
    apply List.sum_eq_zero
    intro x hx
    rw [List.mem_map] at hx
    obtain ⟨off, hoff, rfl⟩ := hx
    rw [hA off (backwardOffsets_subset pp.geometry_params.psf_radius hoff)]
    rw [zero_pow (by omega : coeff_power ≠ 0), zero_mul]

/-- The far-offset geometry projects the center pixel to channel coordinate
100. -/
theorem pixel_n_p_far : pixel_n_p ppFar 1 0 0 = 100 := by
  norm_num [pixel_n_p, recon_ij_to_x, ppFar]

/-- The far-offset geometry's nearest channel for the center pixel is 100. -/
theorem pixel_n_center_far : pixel_n_center ppFar 1 0 0 = 100 := by
  norm_num [pixel_n_center, pixel_n_p_far, jround]

/-- Witness for C7: in the far-offset geometry the single pixel's candidate
channels are 99, 100, 101, all outside the single-channel detector, so the
forward view ignores its voxel values and the back-projected row is zero. -/
theorem zero_footprint_contributes_nothing_witness :
    (∀ off ∈ forwardOffsets ppFar.geometry_params.psf_radius,
      ¬(0 ≤ pixel_n_center ppFar 1 0 ([0].getD 0 0) + off ∧
        pixel_n_center ppFar 1 0 ([0].getD 0 0) + off < (ppFar.sinogram_shape.2.2 : ℤ))) ∧
    forward_project_pixel_batch_to_one_view [[5]] [0] 1 0 ppFar 0 0 =
      forward_project_pixel_batch_to_one_view [[7]] [0] 1 0 ppFar 0 0 ∧
    back_project_one_view_to_pixel_batch [[1]] [0] 1 0 ppFar 1 0 0 = 0 := by
  have hout : ∀ off ∈ forwardOffsets ppFar.geometry_params.psf_radius,
      ¬(0 ≤ pixel_n_center ppFar 1 0 ([0].getD 0 0) + off ∧
        pixel_n_center ppFar 1 0 ([0].getD 0 0) + off < (ppFar.sinogram_shape.2.2 : ℤ)) := by
    rw [ppFar_psf, forwardOffsets_one]
    intro off hoff
    show ¬(0 ≤ pixel_n_center ppFar 1 0 0 + off ∧
      pixel_n_center ppFar 1 0 0 + off < (ppFar.sinogram_shape.2.2 : ℤ))
    rw [pixel_n_center_far, ppFar_nchan]
    fin_cases hoff <;> decide
  refine ⟨hout, ?_, ?_⟩
  · exact (zero_footprint_contributes_nothing ppFar 1 0 [0] 0 hout).1 [[5]] [[7]] 0 0
      (fun j hj hji => absurd (by simp at hj; omega : j = 0) hji)
  · exact (zero_footprint_contributes_nothing ppFar 1 0 [0] 0 hout).2 [[1]] 0 1 (by omega)

/-- The blend of two overlap regions always has length `L`. -/
theorem length_blendOverlap (L : ℕ) (a b : List ℚ) : (blendOverlap L a b).length = L := by
  simp [blendOverlap]

/-- A stitch step only touches the trailing `L` entries of the accumulated
array: any prefix beyond them passes through unchanged. -/
theorem stitchStep_append (L : ℕ) (x t b : List ℚ) (ht : L ≤ t.length) :
    stitchStep L (x ++ t) b = x ++ stitchStep L t b := by
  unfold stitchStep
  have h1 : (x ++ t).length - L = x.length + (t.length - L) := by
    simp [List.length_append]
    omega
  rw [h1, List.take_append_eq_append_take, List.drop_append_eq_append_drop]
  rw [List.take_of_length_le (by omega : x.length ≤ x.length + (t.length - L))]
  rw [List.drop_eq_nil_of_le (by omega : x.length ≤ x.length + (t.length - L))]
  rw [Nat.add_sub_cancel_left]
  simp [List.append_assoc]

/-- Length of a stitch step. -/
theorem length_stitchStep (L : ℕ) (acc b : List ℚ) (ha : L ≤ acc.length)
    (hb : L ≤ b.length) : (stitchStep L acc b).length = acc.length + b.length - L := by
  simp [stitchStep, length_blendOverlap]
  omega

/-- The whole stitch fold leaves an untouched prefix in place, as long as the
running tail keeps at least `L` entries. -/
theorem foldl_stitchStep_append (L : ℕ) (bs : List (List ℚ)) :
    ∀ x t : List ℚ, L ≤ t.length → (∀ b ∈ bs, L ≤ b.length) →
      bs.foldl (stitchStep L) (x ++ t) = x ++ bs.foldl (stitchStep L) t := by
  induction bs with
  | nil => intro x t _ _; simp
  | cons b bs ih =>
    intro x t ht hb
    simp only [List.foldl_cons]
    rw [stitchStep_append L x t b ht]
    refine ih x (stitchStep L t b) ?_ (fun b' hb' => hb b' (by simp [hb']))
    rw [length_stitchStep L t b ht (hb b (by simp))]
    have := hb b (by simp)
    omega

/-- The stitch fold computes exactly the spec's per-seam description whenever
every interior array has extent at least `2 L` (so consecutive overlaps do not
collide) and every array has extent at least `L`. -/
theorem stitchData_loop_eq_specStitch (L : ℕ) (bs : List (List ℚ)) :
    ∀ a : List ℚ, L ≤ a.length → (∀ b ∈ bs, L ≤ b.length) →
      (∀ b ∈ bs.dropLast, 2 * L ≤ b.length) →
      bs.foldl (stitchStep L) a = specStitch L (a :: bs) := by
  induction bs with
  | nil => intro a _ _ _; simp [specStitch]
  | cons b bs ih =>
    intro a ha hb hmid
    cases bs with
    | nil =>
      show stitchStep L a b = specStitch L [a, b]
      simp [specStitch, stitchStep, List.append_assoc]
    | cons c rest =>
      have hbL : L ≤ b.length := hb b (by simp)
      have hb2L : 2 * L ≤ b.length := hmid b (by
        rw [List.dropLast_cons_of_ne_nil (by simp)]
        exact List.mem_cons_self b _)
      have hrestL : ∀ b' ∈ c :: rest, L ≤ b'.length := fun b' h => hb b' (by simp [h])
      rw [List.foldl_cons]
      have hstep : stitchStep L a b =
          (a.take (a.length - L) ++ blendOverlap L (a.drop (a.length - L)) (b.take L)) ++
            b.drop L := by
        simp [stitchStep, List.append_assoc]
      rw [hstep, foldl_stitchStep_append L (c :: rest) _ (b.drop L)
        (by simp [List.length_drop]; omega) hrestL]
      have hsplit : (c :: rest).foldl (stitchStep L) b =
          b.take L ++ (c :: rest).foldl (stitchStep L) (b.drop L) := by
        conv_lhs => rw [← List.take_append_drop L b]
        exact foldl_stitchStep_append L (c :: rest) (b.take L) (b.drop L)
          (by simp [List.length_drop]; omega) hrestL
      have hihb : (c :: rest).foldl (stitchStep L) b = specStitch L (b :: c :: rest) :=
        ih b hbL hrestL (fun b' h => hmid b' (by
          rw [List.dropLast_cons_of_ne_nil (by simp)]
          exact List.mem_cons_of_mem b h))
      have hdrop : (c :: rest).foldl (stitchStep L) (b.drop L) =
          (specStitch L (b :: c :: rest)).drop L := by
        rw [← hihb, hsplit, List.drop_left' (by simp [List.length_take]; omega)]
      rw [hdrop]
      show _ = specStitch L (a :: b :: c :: rest)
      simp [specStitch, List.append_assoc]

/-- C5 counterexample: three arrays of extent 1 stitched with overlap length 1
satisfy the claim's hypotheses (two or more arrays, equal off-axis shapes,
every extent at least `L`), yet the produced value `25/2` matches neither
seam's claimed blend (the spec-description value is 5; the second seam's raw
blend would be 15): with colliding overlaps the later blend reuses an
already-blended value. -/
theorem stitch_blend_formula_fails_on_short_middle :
    stitch_arrays (.arrays [([1], [(0 : ℚ)]), ([1], [10]), ([1], [20])]) 1 0 =
      .ok [25 / 2] ∧
    specStitch 1 [[(0 : ℚ)], [10], [20]] = [5] ∧
    ((25 : ℚ) / 2) ≠ 5 := by
  refine ⟨?_, ?_, by norm_num⟩
  · show Except.ok (stitchData 1 [[(0 : ℚ)], [10], [20]]) = Except.ok [25 / 2]
    norm_num [stitchData, stitchStep, blendOverlap, List.range_succ]
  · norm_num [specStitch, blendOverlap, List.range_succ]

/-- C5 amended: under the claim's hypotheses strengthened by requiring every
interior array to have extent at least `2 L` (and a genuine overlap,
`0 < L`; at `L = 0` the original fails in the numpy broadcast), `stitch_arrays`
returns exactly the spec description: every seam is replaced by the linear
blend `(1 - (j+1)/(L+1))·a + ((j+1)/(L+1))·b` of the trailing entries of the
earlier array and the leading entries of the next, all other entries
unchanged.  Arrays are 1-D here, so the off-axis agreement is automatic; the
off-axis dimensions act pointwise. -/
theorem stitch_arrays_blends_overlaps (arrs : List (List ℚ)) (L : ℕ) (_hL : 0 < L)
    (h2 : 2 ≤ arrs.length)
    (hext : ∀ a ∈ arrs, L ≤ a.length)
    (hmid : ∀ a ∈ (arrs.drop 1).dropLast, 2 * L ≤ a.length) :
    stitch_arrays (.arrays (arrs.map (fun a => ([a.length], a)))) L 0 =
      .ok (specStitch L arrs) := by
  cases arrs with
  | nil => simp at h2
  | cons a rest =>
    have hlen : ((a :: rest).map (fun a => ([a.length], a))).length = (a :: rest).length := by
      simp
    rw [stitch_arrays]
    rw [if_neg (by rw [hlen]; omega)]
    have hcheck : stitchChecksPass
        (((a :: rest).map (fun a => ([a.length], a))).map (fun p => p.1)) L 0 = true := by
      unfold stitchChecksPass
      rw [List.all_eq_true]
      intro dim hdim
      simp only [List.map_map, List.map_cons, Function.comp, List.headD_cons,
        List.mem_range, List.length_singleton] at hdim ⊢
      have hdim0 : dim = 0 := by omega
      subst hdim0
      rw [if_neg (by simp)]
      rw [List.all_eq_true]
      intro x hx
      simp only [List.mem_cons, List.mem_map] at hx
      rcases hx with hx | ⟨y, hy, rfl⟩
      · subst hx
        exact decide_eq_true (hext a (by simp))
      · exact decide_eq_true (hext y (by simp [hy]))
    rw [hcheck]
    simp only [if_pos]
    have hdata : ((a :: rest).map (fun a => ([a.length], a))).map (fun p => p.2) =
        a :: rest := by
      simp [List.map_map, Function.comp_def]
    rw [hdata]
    show Except.ok (stitchData L (a :: rest)) = _
    rw [stitchData]
    rw [stitchData_loop_eq_specStitch L rest a (hext a (by simp))
      (fun b h => hext b (by simp [h])) (by simpa using hmid)]

/-- Witness for the amended C5 theorem at the spec's continuity example: two
constant arrays of extent 5 with values 0 and 10, overlap length 4, give the
linear ramp `2, 4, 6, 8` at the overlap and exact `0`/`10` elsewhere. -/
theorem stitch_arrays_blends_overlaps_witness :
    (0 < 4 ∧ 2 ≤ ([List.replicate 5 (0 : ℚ), List.replicate 5 10]).length) ∧
      stitch_arrays (.arrays ([List.replicate 5 (0 : ℚ), List.replicate 5 10].map
        (fun a => ([a.length], a)))) 4 0 = .ok [0, 2, 4, 6, 8, 10] := by
  refine ⟨⟨by decide, by decide⟩, ?_⟩
  rw [stitch_arrays_blends_overlaps [List.replicate 5 (0 : ℚ), List.replicate 5 10] 4
    (by decide) (by decide) (fun a ha => by fin_cases ha <;> simp)
    (fun a ha => by simp at ha)]
  congr 1
  norm_num [specStitch, blendOverlap, List.range_succ, List.replicate]

/-- The in-mask index list has no duplicates. -/
theorem rorIndices_nodup (rows cols : ℕ) : (rorIndices rows cols).Nodup :=
  (List.nodup_range _).filter _

/-- C3 counterexample: at shape `(3, 3)` (in-mask indices `[1, 3, 4, 5, 7]`,
so `N = 5`) with `k = 4` subsets, `m = 2` and the padding size is
`k·m - N = 3 > m - 1`, so padding spills beyond the final row.  The draw
`perm = [1, 3, 4, 5, 7]`, `extra = [7, 1, 3]` is one `np.random` can produce
(the permutation is a permutation of the in-mask indices; the extra indices
are distinct and drawn from `indices[:num_non_final]`), yet the returned
partition `[[1, 3], [4, 5], [7, 7], [1, 3]]` repeats the index 7 inside a
single row, refuting the claimed no-duplicates-within-a-row invariant. -/
theorem gen_pixel_partition_row_duplicate :
    [1, 3, 4, 5, 7].Perm (rorIndices 3 3) ∧
    1 ≤ 4 ∧ 4 ≤ (rorIndices 3 3).length ∧
    [7, 1, 3].Nodup ∧
    [7, 1, 3].length =
      4 * (((rorIndices 3 3).length + 4 - 1) / 4) - (rorIndices 3 3).length ∧
    (∀ x ∈ [7, 1, 3],
      x ∈ [1, 3, 4, 5, 7].take ((4 - 1) * (((rorIndices 3 3).length + 4 - 1) / 4))) ∧
    gen_pixel_partition 3 3 4 [1, 3, 4, 5, 7] [7, 1, 3] =
      .ok ([[1, 3], [4, 5], [7, 7], [1, 3]], false) ∧
    ¬ (∀ row ∈ [[1, 3], [4, 5], [7, 7], [1, 3]], List.Nodup row) := by
  refine ⟨by decide, by decide, by decide, by decide, by decide, by decide, rfl, by decide⟩

/-- C3 amended: with `N` the in-mask pixel count and `m = ⌈N/k⌉`, and under
the additional hypothesis `(k - 1)·m ≤ N` (the padding fits inside the final
row; the counterexample shows the invariant fails without it), every valid
random draw yields a `k × m` partition with `m` the smallest integer
satisfying `k·m ≥ N`, whose rows cover exactly the in-mask index set, have no
duplicate inside any single row, and are sorted ascending. -/
theorem gen_pixel_partition_invariants (rows cols k N m : ℕ) (perm extra : List ℕ)
    (hN : N = (rorIndices rows cols).length)
    (hm : m = (N + k - 1) / k)
    (hk1 : 1 ≤ k) (hkN : k ≤ N)
    (hperm : perm.Perm (rorIndices rows cols))
    (hmid : (k - 1) * m ≤ N)
    (hlen : extra.length = k * m - N)
    (hnodup : extra.Nodup)
    (hmem : ∀ x ∈ extra, x ∈ perm.take ((k - 1) * m)) :
    ∃ P, gen_pixel_partition rows cols k perm extra = .ok (P, false) ∧
      P.length = k ∧
      (∀ row ∈ P, row.length = m) ∧
      N ≤ k * m ∧ (∀ m', N ≤ k * m' → m ≤ m') ∧
      (∀ x, x ∈ rorIndices rows cols ↔ ∃ row ∈ P, x ∈ row) ∧
      (∀ row ∈ P, row.Nodup) ∧
      (∀ row ∈ P, row.Sorted (· ≤ ·)) := by
  subst hN
  subst hm
  set N := (rorIndices rows cols).length with hNdef
  set m := (N + k - 1) / k with hmdef
  have hNpos : 1 ≤ N := hk1.trans hkN
  have hdm := Nat.div_add_mod (N + k - 1) k
  have hr : (N + k - 1) % k < k := Nat.mod_lt _ (by omega)
  rw [← hmdef] at hdm
  have hkm : N ≤ k * m := by omega
  have hm1 : 1 ≤ m := by
    rcases Nat.eq_zero_or_pos m with h0 | h1
    · rw [h0, Nat.mul_zero] at hkm; omega
    · exact h1
  have hmin : ∀ m', N ≤ k * m' → m ≤ m' := by
    intro m' hm'
    by_contra hlt
    push_neg at hlt
    have hexp : k * (m' + 1) ≤ k * m := Nat.mul_le_mul_left k hlt
    have heq1 : k * (m' + 1) = k * m' + k := by ring
    omega
  have hmN : m ≤ N := hmin N (Nat.le_mul_of_pos_left N hk1)
  have hsplitk : k * m = (k - 1) * m + m := by
    have h1 : k = (k - 1) + 1 := by omega
    calc k * m = ((k - 1) + 1) * m := by rw [← h1]
      _ = (k - 1) * m + m := by ring
  have hE1 : k * m - N ≤ (k - 1) * m := by omega
  have hE2 : k * m - N ≤ N := by omega
  have hpl : perm.length = N := hperm.length_eq
  have heq : gen_pixel_partition rows cols k perm extra =
      .ok ((reshapeRows k m (perm ++ extra)).map (List.insertionSort (· ≤ ·)), false) := by
    simp only [gen_pixel_partition]
    rw [← hNdef, if_neg (by omega : ¬ k > N)]
    rw [if_neg (by omega : ¬ k = 0), ← hmdef]
    rw [if_pos (le_min hE1 hE2)]
    rw [decide_eq_false (by omega : ¬ k > N)]
  have htot : (perm ++ extra).length = k * m := by
    rw [List.length_append, hpl, hlen]; omega
  have hrow : ∀ row ∈ reshapeRows k m (perm ++ extra),
      ∃ i, i < k ∧ row = ((perm ++ extra).drop (i * m)).take m := by
    intro row hrowmem
    rw [reshapeRows, List.mem_map] at hrowmem
    obtain ⟨i, hi, rfl⟩ := hrowmem
    exact ⟨i, List.mem_range.mp hi, rfl⟩
  have hrowlen : ∀ i, i < k → (((perm ++ extra).drop (i * m)).take m).length = m := by
    intro i hi
    rw [List.length_take, List.length_drop, htot]
    have h1 : (i + 1) * m ≤ k * m := Nat.mul_le_mul_right m (by omega)
    have h2 : (i + 1) * m = i * m + m := by ring
    omega
  have hpermNodup : perm.Nodup := hperm.symm.nodup (rorIndices_nodup rows cols)
  refine ⟨_, heq, by simp [reshapeRows], ?_, hkm, hmin, ?_, ?_, ?_⟩
  · intro row hrm
    rw [List.mem_map] at hrm
    obtain ⟨chunk, hc, rfl⟩ := hrm
    obtain ⟨i, hi, rfl⟩ := hrow chunk hc
    rw [(List.perm_insertionSort _ _).length_eq]
    exact hrowlen i hi
  · intro x
    constructor
    · intro hx
      have hxp : x ∈ perm ++ extra := List.mem_append_left _ (hperm.mem_iff.mpr hx)
      obtain ⟨idx, hidx, hget⟩ := List.mem_iff_getElem.mp hxp
      have hidx' : idx < k * m := htot ▸ hidx
      have hik : idx / m < k := by
        rw [Nat.div_lt_iff_lt_mul hm1]
        omega
      refine ⟨List.insertionSort (· ≤ ·) (((perm ++ extra).drop ((idx / m) * m)).take m),
        ?_, ?_⟩
      · rw [List.mem_map]
        refine ⟨_, ?_, rfl⟩
        rw [reshapeRows, List.mem_map]
        exact ⟨idx / m, List.mem_range.mpr hik, rfl⟩
      · rw [(List.perm_insertionSort _ _).mem_iff]
        have hmod : idx % m < m := Nat.mod_lt _ hm1
        have hdivmod : (idx / m) * m + idx % m = idx := by
          rw [Nat.mul_comm]
          exact Nat.div_add_mod idx m
        rw [List.mem_iff_getElem]
        refine ⟨idx % m, by rw [hrowlen (idx / m) hik]; exact hmod, ?_⟩
        rw [List.getElem_take, List.getElem_drop]
        simp only [hdivmod]
        exact hget
    · rintro ⟨row, hrm, hxrow⟩
      rw [List.mem_map] at hrm
      obtain ⟨chunk, hc, rfl⟩ := hrm
      rw [(List.perm_insertionSort _ _).mem_iff] at hxrow
      obtain ⟨i, _, rfl⟩ := hrow chunk hc
      have hxl : x ∈ perm ++ extra :=
        ((List.take_sublist _ _).trans (List.drop_sublist _ _)).subset hxrow
      rcases List.mem_append.mp hxl with h | h
      · exact hperm.mem_iff.mp h
      · exact hperm.mem_iff.mp ((List.take_sublist _ _).subset (hmem x h))
  · intro row hrm
    rw [List.mem_map] at hrm
    obtain ⟨chunk, hc, rfl⟩ := hrm
    obtain ⟨i, hi, rfl⟩ := hrow chunk hc
    rw [(List.perm_insertionSort _ _).nodup_iff]
    by_cases hfin : i + 1 < k
    · have h1 : i * m + m ≤ perm.length := by
        rw [hpl]
        have h2 : (i + 1) * m ≤ (k - 1) * m := Nat.mul_le_mul_right m (by omega)
        have h3 : (i + 1) * m = i * m + m := by ring
        omega
      have hdropeq : (perm ++ extra).drop (i * m) = perm.drop (i * m) ++ extra := by
        rw [List.drop_append_eq_append_drop,
          Nat.sub_eq_zero_of_le (show i * m ≤ perm.length by omega), List.drop_zero]
      rw [hdropeq, List.take_append_of_le_length (by rw [List.length_drop]; omega)]
      exact ((List.take_sublist _ _).trans (List.drop_sublist _ _)).nodup hpermNodup
    · have hieq : i = k - 1 := by omega
      subst hieq
      have hdropeq : (perm ++ extra).drop ((k - 1) * m) =
          perm.drop ((k - 1) * m) ++ extra := by
        rw [List.drop_append_eq_append_drop,
          Nat.sub_eq_zero_of_le (show (k - 1) * m ≤ perm.length by rw [hpl]; exact hmid),
          List.drop_zero]
      have hlen2 : (perm.drop ((k - 1) * m) ++ extra).length = m := by
        rw [List.length_append, List.length_drop, hpl, hlen]
        omega
      rw [hdropeq, List.take_of_length_le (le_of_eq hlen2)]
      refine List.Nodup.append (List.Sublist.nodup (List.drop_sublist _ _) hpermNodup)
        hnodup ?_
      intro y hy hy2
      exact (List.disjoint_take_drop hpermNodup le_rfl) (hmem y hy2) hy
  · intro row hrm
    rw [List.mem_map] at hrm
    obtain ⟨chunk, _, rfl⟩ := hrm
    exact List.sorted_insertionSort _ _

/-- Witness for the amended C3 theorem: shape `(3, 3)` (`N = 5`), `k = 2`
subsets, `m = 3`, draw `perm = [1, 3, 4, 5, 7]`, `extra = [1]`. -/
theorem gen_pixel_partition_invariants_witness :
    (1 ≤ 2 ∧ 2 ≤ (rorIndices 3 3).length ∧ [1].Nodup) ∧
      ∃ P, gen_pixel_partition 3 3 2 [1, 3, 4, 5, 7] [1] = .ok (P, false) ∧
        P.length = 2 ∧
        (∀ row ∈ P, row.length = 3) ∧
        5 ≤ 2 * 3 ∧ (∀ m', 5 ≤ 2 * m' → 3 ≤ m') ∧
        (∀ x, x ∈ rorIndices 3 3 ↔ ∃ row ∈ P, x ∈ row) ∧
        (∀ row ∈ P, row.Nodup) ∧
        (∀ row ∈ P, row.Sorted (· ≤ ·)) :=
  ⟨⟨by decide, by decide, by decide⟩,
    gen_pixel_partition_invariants 3 3 2 5 3 [1, 3, 4, 5, 7] [1] (by decide) (by decide)
      (by decide) (by decide) (by decide) (by decide) (by decide) (by decide) (by decide)⟩

end Mbirjax
